import Mathlib

/-!
Verification of the i2hs implicit-hitting-set MaxSAT solver core.

Shallow embedding of the repository sources: the bidirectional map `BiMap`
(src/i2hs/__init__.py), the hypergraph with its heuristic and exact
hitting-set computations (src/i2hs/_isinghs.py), and the core-refinement
loop `Solver.run` (src/i2hs/_solver.py), together with theorems settling
the specification claims.

Conventions used throughout:
- Python `float` weights and backend output values are modelled as exact
  rationals (`ℚ`).
- Python `dict`s are modelled as functions into `Option`.
- Python exceptions (KeyError, IndexError, TypeError) are modelled as
  explicit error constructors of the result types.
- The stochastic optimization backend and the incremental SAT engine are
  external collaborators; they are modelled as arbitrary function
  parameters (oracles), so theorems quantify over every possible behaviour.
- Loops whose termination is not structural are modelled with an explicit
  fuel parameter, keeping every definition kernel-computable; sufficiency
  of the chosen fuel is proved where a claim needs it.
-/

namespace I2hs

/-! ## BiMap (src/i2hs/__init__.py, lines 20-60)

The two Python dicts `key_to_value` / `value_to_key` are modelled as
functions into `Option`.  Keys are relaxation literals (`ℤ`) and values are
vertex indices (`ℕ`), matching the only instantiation in the repository
(`Solver.__init__` inserts `(v, i)` pairs). -/

structure BiMap where
  key_to_value : ℤ → Option ℕ
  value_to_key : ℕ → Option ℤ

/-- Embedding of the `BiMap()` constructor: both dicts empty. -/
def BiMap.empty : BiMap := ⟨fun _ => none, fun _ => none⟩

/-- Embedding of `BiMap.insert`: `self.key_to_value[key] = value` and
`self.value_to_key[value] = key` (unconditional dict assignment, so a later
insert overwrites the forward entry but leaves a stale reverse entry). -/
def BiMap.insert (m : BiMap) (key : ℤ) (value : ℕ) : BiMap where
  key_to_value := fun k => if k = key then some value else m.key_to_value k
  value_to_key := fun v => if v = value then some key else m.value_to_key v

/-- Embedding of `BiMap.get_value`: `self.key_to_value.get(key)`. -/
def BiMap.get_value (m : BiMap) (key : ℤ) : Option ℕ := m.key_to_value key

/-- Embedding of `BiMap.get_key`: `self.value_to_key.get(value)`. -/
def BiMap.get_key (m : BiMap) (value : ℕ) : Option ℤ := m.value_to_key value

/-- A sequence of `insert` calls starting from the empty map, in call order
(left fold, matching the Python loop in `Solver.__init__`). -/
def BiMap.ofList (ps : List (ℤ × ℕ)) : BiMap :=
  ps.foldl (fun m p => m.insert p.1 p.2) BiMap.empty

/-! ## Hypergraph state (src/i2hs/_isinghs.py, `__init__` and accessors)

Vertex count `n`, append-only edge list, weight vector of length `n`.
The statistics fields (`ipucalls`, `encodingtime`, `annealingtime`) and the
backend configuration are not modelled; no claim mentions them. -/

structure Hypergraph where
  n : ℕ
  edges : List (List ℕ)
  weights : List ℚ
  deriving DecidableEq

/-- Embedding of `Hypergraph.__init__(n, config)`: no edges, all weights 0. -/
def Hypergraph.init (n : ℕ) : Hypergraph := ⟨n, [], List.replicate n 0⟩

/-- Embedding of `Hypergraph.add_edge`: `self.edges.append(e)` — no
validation of any kind is performed on `e`. -/
def Hypergraph.add_edge (g : Hypergraph) (e : List ℕ) : Hypergraph :=
  { g with edges := g.edges ++ [e] }

/-- Embedding of `Hypergraph.set_weight`: `self.weights[v] = w`.
(Python raises IndexError for `v` out of range; `List.set` is then a no-op.
No claim exercises an out-of-range index.) -/
def Hypergraph.set_weight (g : Hypergraph) (v : ℕ) (w : ℚ) : Hypergraph :=
  { g with weights := g.weights.set v w }

/-- Embedding of `Hypergraph.add_to_weight`: `self.weights[v] += w`. -/
def Hypergraph.add_to_weight (g : Hypergraph) (v : ℕ) (w : ℚ) : Hypergraph :=
  { g with weights := g.weights.set v (g.weights.getD v 0 + w) }

/-- Embedding of `Hypergraph.get_weight`: `self.weights[v]` (in-range in
every use by the solver; out of range defaults to 0 here where Python would
raise). -/
def Hypergraph.get_weight (g : Hypergraph) (v : ℕ) : ℚ := g.weights.getD v 0

/-! ## Exact-mode hitting set with repair (src/i2hs/_isinghs.py, lines 104-141)

The optimization backend (`_create_model` + `_solve_model`, lines 174-241)
is an external collaborator: it receives the model data (vertex count,
weight vector, edge list) and returns a vector of real-valued assignments.
It is modelled as an arbitrary function into `List ℚ`. -/

/-- Outcome of a hitting-set computation.  `err` stands for an uncaught
Python exception (KeyError / IndexError depending on the call site);
`fuelOut` is a modelling artifact meaning the computation did not finish
within the given fuel. -/
inductive HsOut where
  | ok (r : List ℕ)
  | err
  | fuelOut
  deriving DecidableEq

/-- An optimization backend: from the submitted model data (vertex count,
weights, edges) to the returned value vector (`result.best.values`). -/
def Backend : Type := ℕ → List ℚ → List (List ℕ) → List ℚ

/-- Embedding of the decoding in `_solve_model` (lines 237-241): keep the
indices `i < n` whose value exceeds `0.0001` (modelled as the exact
rational `mkRat 1 10000 = 1/10000`). -/
def decode (n : ℕ) (raw : List ℚ) : List ℕ :=
  (raw.enum.filter (fun p => decide (p.1 < n) && decide (mkRat 1 10000 < p.2))).map Prod.fst

/-- Embedding of `any(v in e for v in result)` (line 132). -/
def hitsEdge (result : List ℕ) (e : List ℕ) : Bool :=
  result.any (fun v => e.contains v)

/-- Embedding of the `unhit` collection loop (lines 130-133). -/
def unhitEdges (result : List ℕ) (edges : List (List ℕ)) : List (List ℕ) :=
  edges.filter (fun e => !(hitsEdge result e))

/-- One unfolding of exact-mode `compute_hs` (lines 116-141), with the
recursive repair call abstracted as `rec`.  The `none` branch of the inner
match is the IndexError raised by `self.edges[0][0]` when the first stored
edge is empty. -/
def compute_hs_exact_step (backend : Backend) (rec : Hypergraph → HsOut)
    (g : Hypergraph) : HsOut :=
  if g.edges.isEmpty then .ok []
  else
    match (if (decode g.n (backend g.n g.weights g.edges)).isEmpty
           then ((g.edges.headD []).head?.map fun v => [v])
           else some (decode g.n (backend g.n g.weights g.edges))) with
    | none => .err
    | some result0 =>
      if (unhitEdges result0 g.edges).isEmpty then .ok result0
      else
        match rec ⟨g.n, unhitEdges result0 g.edges, List.replicate g.n 0⟩ with
        | .ok r => .ok (result0 ++ r)
        | .err => .err
        | .fuelOut => .fuelOut

/-- Embedding of exact-mode `compute_hs` (the `heuristic=False` path of
lines 104-141).  Python recurses directly; the embedding spends one unit of
fuel per repair level, so `fuelOut` corresponds to unbounded recursion. -/
def compute_hs_exact (backend : Backend) : ℕ → Hypergraph → HsOut
  | 0, _ => .fuelOut
  | fuel+1, g => compute_hs_exact_step backend (compute_hs_exact backend fuel) g

/-- Exact-mode repair terminates on the given model for at least one fuel
budget (Python's direct recursion returns). -/
def ExactTerminates (backend : Backend) (g : Hypergraph) : Prop :=
  ∃ fuel r, compute_hs_exact backend fuel g = HsOut.ok r

/-- A backend behaviour under which the repair recursion never terminates:
it always answers with values selecting vertex 1, which hits no edge of the
model below, so every repair pass reproduces the same model. -/
def badBackend : Backend := fun _ _ _ => [0, 1]

/-- The model on which `badBackend` sends the repair recursion into an
infinite loop: the decoded selection `[1]` misses the only edge `[0]`, and
the repair sub-model (same vertex count, the uncovered edge, zero weights)
equals the model itself. -/
def loopModel : Hypergraph := ⟨2, [[0]], [0, 0]⟩

/-! ## Heuristic hitting set (src/i2hs/_isinghs.py, `_hs_simple`, lines 143-171)

The Python loop keeps a dict `watch` mapping each vertex to the set of edge
indices it currently watches, and a `heapq` priority queue of
`(-degree, vertex)` pairs.  Modelling choices, each noted at its
definition:
- `watch` becomes a list of `Finset ℕ` indexed by vertex (the dict has
  exactly the keys `0..n-1`); a missing key (Python KeyError) becomes an
  explicit error.
- the binary heap is modelled extensionally: a plain list together with a
  pop-the-minimum operation.  `heapq.heappop` returns the minimum element
  under lexicographic tuple comparison, and equal tuples are
  indistinguishable, so the multiset behaviour is identical.
- `set.copy()` iteration order is unspecified in Python; the embedding
  iterates the snapshot in ascending order.  No property proved below
  depends on this order.
- `set.remove` raises KeyError when the element is absent (this happens on
  edges with duplicate vertices); the embedding returns an error there. -/

/-- Lexicographic comparison of `(-degree, vertex)` pairs, matching
Python's tuple `<=`. -/
def pairLe (a b : ℤ × ℕ) : Bool :=
  decide (a.1 < b.1) || (decide (a.1 = b.1) && decide (a.2 ≤ b.2))

/-- Extensional model of `heapq.heappop`: return the minimum pair and the
remaining queue. -/
def popMin : List (ℤ × ℕ) → Option ((ℤ × ℕ) × List (ℤ × ℕ))
  | [] => none
  | a :: rest =>
    match popMin rest with
    | none => some (a, rest)
    | some (m, rest') => if pairLe a m then some (a, rest) else some (m, a :: rest')

/-- Total size of all watch sets (used for fuel accounting). -/
def sumCard (watch : List (Finset ℕ)) : ℕ := (watch.map Finset.card).sum

/-- Embedding of the inner loop of `_hs_simple` (lines 168-170): for each
vertex `w` of edge `i`, `watch[w].remove(i)` then push `(-len(watch[w]), w)`.
`none` models the Python KeyError raised when `w` is not a dict key or when
`i` is not in `watch[w]` (the latter occurs when an edge lists the same
vertex twice). -/
def removeOne (i : ℕ) : List (Finset ℕ) → List (ℤ × ℕ) → List ℕ →
    Option (List (Finset ℕ) × List (ℤ × ℕ))
  | watch, queue, [] => some (watch, queue)
  | watch, queue, w :: ws =>
    match watch.get? w with
    | none => none
    | some s =>
      if i ∈ s then
        removeOne i (watch.set w (s.erase i))
          (queue ++ [(-(((s.erase i).card : ℕ) : ℤ), w)]) ws
      else none

/-- Embedding of the outer loop of `_hs_simple` (lines 167-170): process
every edge index of the popped vertex's watch-set snapshot. -/
def processEdges (edges : List (List ℕ)) :
    List (Finset ℕ) → List (ℤ × ℕ) → List ℕ →
    Option (List (Finset ℕ) × List (ℤ × ℕ))
  | watch, queue, [] => some (watch, queue)
  | watch, queue, i :: is =>
    match edges.get? i with
    | none => none
    | some e =>
      match removeOne i watch queue e with
      | none => none
      | some (w1, q1) => processEdges edges w1 q1 is

/-- Embedding of the `while len(queue) > 0` loop of `_hs_simple`
(lines 160-171), with explicit fuel.  The snapshot `watch[v].copy()` is
iterated in ascending order; watch sets only ever hold indices of `edges`
(they are populated from `range(len(edges))`), so the ascending
enumeration is computed by filtering `List.range edges.length`. -/
def hsLoop (edges : List (List ℕ)) :
    ℕ → List (Finset ℕ) → List (ℤ × ℕ) → List ℕ → HsOut
  | 0, _, _, _ => .fuelOut
  | fuel+1, watch, queue, result =>
    match popMin queue with
    | none => .ok result
    | some ((deg, v), queue') =>
      match watch.get? v with
      | none => .err
      | some s =>
        if -deg ≠ (s.card : ℤ) then hsLoop edges fuel watch queue' result
        else if deg = 0 then .ok result
        else
          match processEdges edges watch queue'
              ((List.range edges.length).filter (fun j => decide (j ∈ s))) with
          | none => .err
          | some (w', q') => hsLoop edges fuel w' q' (result ++ [v])

/-- Embedding of the `watch` initialisation (lines 149-154):
`watch[v] = set of edge indices whose edge contains v`, for `v < n`. -/
def watchInit (n : ℕ) (edges : List (List ℕ)) : List (Finset ℕ) :=
  (List.range n).map
    (fun v => ((List.range edges.length).filter
      (fun i => decide (v ∈ edges.getD i []))).toFinset)

/-- Embedding of the queue initialisation (lines 156-158). -/
def queueInit (n : ℕ) (edges : List (List ℕ)) : List (ℤ × ℕ) :=
  (List.range n).map
    (fun v => (-((((watchInit n edges).getD v ∅).card : ℕ) : ℤ), v))

/-- Fuel measure for the heuristic loop: each iteration strictly decreases
`phi`, so `phi + 1` fuel always suffices. -/
def phi (watch : List (Finset ℕ)) (queue : List (ℤ × ℕ)) : ℕ :=
  queue.length + 2 * sumCard watch

/-- Embedding of `_hs_simple` (equivalently `compute_hs(heuristic=True)`,
line 113-114): initialise the watch sets and the queue, then run the loop
with provably sufficient fuel. -/
def hs_simple (n : ℕ) (edges : List (List ℕ)) : HsOut :=
  hsLoop edges (phi (watchInit n edges) (queueInit n edges) + 1)
    (watchInit n edges) (queueInit n edges) []

/-! ## Core-refinement loop (src/i2hs/_solver.py)

The incremental SAT engine (PySAT) is an external collaborator; it is
modelled as an oracle over an abstract state type `S`: `solve` consumes an
assumption set and yields the result plus the successor state, and
`getModel` / `getCore` read the state left by the most recent call. -/

structure SatEngine (S : Type) where
  solve : S → Finset ℤ → Bool × S
  getModel : S → Option (List ℤ)
  getCore : S → Option (List ℤ)

/-- Embedding of the mapping built by `Solver.__init__` (lines 36-37):
`mapping.insert(v, i)` for each enumerated relaxation pair `(v, weight)`. -/
def buildMapping (relaxation : List (ℤ × ℚ)) : BiMap :=
  BiMap.ofList (relaxation.enum.map (fun p => (p.2.1, p.1)))

/-- Embedding of the hypergraph built by `Solver.__init__` (lines 33, 38):
`Hypergraph(len(relaxation))` followed by `set_weight(i, weight)` for each
enumerated pair. -/
def initialHypergraph (relaxation : List (ℤ × ℚ)) : Hypergraph :=
  relaxation.enum.foldl (fun g p => g.set_weight p.1 p.2.2)
    (Hypergraph.init relaxation.length)

/-- Embedding of `relaxation_vars` (line 67): the set of relaxation
literals. -/
def relaxationVars (relaxation : List (ℤ × ℚ)) : Finset ℤ :=
  (relaxation.map Prod.fst).toFinset

/-- One SAT query of the refinement loop: the hitting set computed for it
and the assumption set actually passed to the engine. -/
structure Query where
  hs : List ℕ
  assumption : Finset ℤ
  deriving DecidableEq

/-- Embedding of the assumption derivation (lines 72-73 and 77-78):
`relaxation_vars.difference(set(map(get_key, hittingset)))`.  Python's set
may contain `None` (for a vertex outside the mapping); since the set is
only used as the subtrahend of a difference over integer literals, dropping
the `None` (`filterMap`) is extensionally identical. -/
def mkAssumption (relaxVars : Finset ℤ) (mapping : BiMap) (hs : List ℕ) :
    Finset ℤ :=
  relaxVars \ (hs.filterMap mapping.get_key).toFinset

/-- Outcome of the `while True` loop of `run` (lines 70-87).
`crashed` is the uncaught TypeError raised inside `_extract_core` when
`get_core()` returns `None`: the guard `if core is None: False` (line 56)
is a bare expression — not `return False` — so execution falls through to
`list(map(..., None))`, which raises.  `hsError` is an exception escaping
from `compute_hs`. -/
inductive LoopOut (S : Type) where
  | finished (s : S) (g : Hypergraph) (trace : List Query)
  | crashed (trace : List Query)
  | hsError (trace : List Query)
  | fuelOut (trace : List Query)
  deriving DecidableEq

/-- Trace of SAT queries recorded by a loop outcome. -/
def LoopOut.trace {S : Type} : LoopOut S → List Query
  | .finished _ _ tr => tr
  | .crashed tr => tr
  | .hsError tr => tr
  | .fuelOut tr => tr

/-- Embedding of the `while True` loop of `run` (lines 70-87), with
explicit fuel and a query trace.  The exact-mode hitting-set computation is
a parameter (`compute_hs_exact backend fuel` is one instance).  Cores are
mapped through `get_value` (line 58); `filterMap` drops literals outside
the mapping, where Python would store `None` in the edge (the SAT contract
restricts cores to assumption literals, where both agree). -/
def runLoop {S : Type} (eng : SatEngine S) (exact : Hypergraph → HsOut)
    (relaxVars : Finset ℤ) (mapping : BiMap) :
    ℕ → S → Hypergraph → List Query → LoopOut S
  | 0, _, _, tr => .fuelOut tr
  | fuel+1, s, g, tr =>
    match hs_simple g.n g.edges with
    | .err => .hsError tr
    | .fuelOut => .fuelOut tr
    | .ok hs1 =>
      match eng.solve s (mkAssumption relaxVars mapping hs1) with
      | (true, s1) =>
        match exact g with
        | .err => .hsError (tr ++ [⟨hs1, mkAssumption relaxVars mapping hs1⟩])
        | .fuelOut => .fuelOut (tr ++ [⟨hs1, mkAssumption relaxVars mapping hs1⟩])
        | .ok hs2 =>
          match eng.solve s1 (mkAssumption relaxVars mapping hs2) with
          | (true, s2) =>
            .finished s2 g
              (tr ++ [⟨hs1, mkAssumption relaxVars mapping hs1⟩,
                ⟨hs2, mkAssumption relaxVars mapping hs2⟩])
          | (false, s2) =>
            match eng.getCore s2 with
            | none =>
              .crashed
                (tr ++ [⟨hs1, mkAssumption relaxVars mapping hs1⟩,
                  ⟨hs2, mkAssumption relaxVars mapping hs2⟩])
            | some c =>
              runLoop eng exact relaxVars mapping fuel s2
                (g.add_edge (c.filterMap mapping.get_value))
                (tr ++ [⟨hs1, mkAssumption relaxVars mapping hs1⟩,
                  ⟨hs2, mkAssumption relaxVars mapping hs2⟩])
      | (false, s1) =>
        match eng.getCore s1 with
        | none => .crashed (tr ++ [⟨hs1, mkAssumption relaxVars mapping hs1⟩])
        | some c =>
          runLoop eng exact relaxVars mapping fuel s1
            (g.add_edge (c.filterMap mapping.get_value))
            (tr ++ [⟨hs1, mkAssumption relaxVars mapping hs1⟩])

/-- Embedding of the `cost` sum (lines 93-96): total weight of relaxation
literals absent from the model.  `get_value` always succeeds on relaxation
literals; the `none` default (unreachable there) stands for Python's
TypeError on `weights[None]`. -/
def costOf (relaxVars : Finset ℤ) (mapping : BiMap) (g : Hypergraph)
    (m : List ℤ) : ℚ :=
  (relaxVars.filter (fun v => v ∉ m)).sum
    (fun v => match mapping.get_value v with
              | some i => g.get_weight i
              | none => 0)

/-- Embedding of the total-weight sum in lines 97-100. -/
def totalWeight (relaxVars : Finset ℤ) (mapping : BiMap) (g : Hypergraph) : ℚ :=
  relaxVars.sum
    (fun v => match mapping.get_value v with
              | some i => g.get_weight i
              | none => 0)

/-- Outcome of `run` (lines 89-102): a `(assignment, cost, fitness)`
triple, the `None` return (`nores`), or one of the loop's abnormal
outcomes. -/
inductive RunOut where
  | result (assignment : List ℤ) (cost fitness : ℚ)
  | nores
  | crashed
  | hsError
  | fuelOut
  deriving DecidableEq

/-- Embedding of the result extraction (lines 89-102): a falsy model
(`None` or the empty list) yields `None`; otherwise the assignment prefix,
`cost`, and `fitness = total - cost` are computed. -/
def finalize (relaxVars : Finset ℤ) (mapping : BiMap) (g : Hypergraph) :
    Option (List ℤ) → RunOut
  | none => .nores
  | some m =>
    if m.isEmpty then .nores
    else
      .result (m.take (m.length - relaxVars.card))
        (costOf relaxVars mapping g m)
        (totalWeight relaxVars mapping g - costOf relaxVars mapping g m)

/-- Embedding of `Solver.run` (lines 63-102): build the mapping and the
hypergraph as in `__init__`, run the refinement loop, then extract the
result from the engine's last model.  The query trace is returned alongside
for the assumption-set claims. -/
def run {S : Type} (eng : SatEngine S) (exact : Hypergraph → HsOut)
    (relaxation : List (ℤ × ℚ)) (s0 : S) (fuel : ℕ) : RunOut × List Query :=
  match runLoop eng exact (relaxationVars relaxation)
      (buildMapping relaxation) fuel s0 (initialHypergraph relaxation) [] with
  | .finished s _g tr =>
    (finalize (relaxationVars relaxation) (buildMapping relaxation) _g
      (eng.getModel s), tr)
  | .crashed tr => (.crashed, tr)
  | .hsError tr => (.hsError, tr)
  | .fuelOut tr => (.fuelOut, tr)

/-- A SAT engine whose queries are all unsatisfiable and that yields no
core and no model (e.g. unsatisfiable hard clauses with an engine producing
no core). -/
def noCoreEngine : SatEngine Unit :=
  ⟨fun _ _ => (false, ()), fun _ => none, fun _ => none⟩

/-- A SAT engine whose queries all succeed, with a fixed model. -/
def alwaysSatEngine (model : Option (List ℤ)) : SatEngine Unit :=
  ⟨fun _ _ => (true, ()), fun _ => model, fun _ => none⟩

/-! ## Lemmas and claim theorems -/

/-! ## BiMap lemmas -/

lemma BiMap.get_value_insert (m : BiMap) (key : ℤ) (value : ℕ) (k : ℤ) :
    (m.insert key value).get_value k =
      if k = key then some value else m.get_value k := rfl

lemma BiMap.get_key_insert (m : BiMap) (key : ℤ) (value : ℕ) (v : ℕ) :
    (m.insert key value).get_key v =
      if v = value then some key else m.get_key v := rfl

/-- Folding further inserts whose keys avoid `k` does not change the
forward lookup at `k`. -/
lemma BiMap.get_value_foldl_of_not_mem (ps : List (ℤ × ℕ)) (m : BiMap)
    (k : ℤ) (h : k ∉ ps.map Prod.fst) :
    (ps.foldl (fun m p => m.insert p.1 p.2) m).get_value k = m.get_value k := by
  induction ps generalizing m with
  | nil => rfl
  | cons p rest ih =>
    simp only [List.map_cons, List.mem_cons] at h
    push_neg at h
    rw [List.foldl_cons, ih _ h.2, BiMap.get_value_insert, if_neg h.1]

/-- Folding further inserts whose values avoid `v` does not change the
backward lookup at `v`. -/
lemma BiMap.get_key_foldl_of_not_mem (ps : List (ℤ × ℕ)) (m : BiMap)
    (v : ℕ) (h : v ∉ ps.map Prod.snd) :
    (ps.foldl (fun m p => m.insert p.1 p.2) m).get_key v = m.get_key v := by
  induction ps generalizing m with
  | nil => rfl
  | cons p rest ih =>
    simp only [List.map_cons, List.mem_cons] at h
    push_neg at h
    rw [List.foldl_cons, ih _ h.2, BiMap.get_key_insert, if_neg h.1]

/-- Inserted pairs are found by both lookups, provided keys and values are
pairwise distinct. -/
lemma BiMap.lookup_foldl_of_mem (ps : List (ℤ × ℕ)) (m : BiMap)
    (hk : (ps.map Prod.fst).Nodup) (hv : (ps.map Prod.snd).Nodup)
    {p : ℤ × ℕ} (hp : p ∈ ps) :
    (ps.foldl (fun m q => m.insert q.1 q.2) m).get_value p.1 = some p.2 ∧
    (ps.foldl (fun m q => m.insert q.1 q.2) m).get_key p.2 = some p.1 := by
  induction ps generalizing m with
  | nil => cases hp
  | cons q rest ih =>
    simp only [List.map_cons, List.nodup_cons] at hk hv
    rcases List.mem_cons.mp hp with rfl | hmem
    · rw [List.foldl_cons]
      constructor
      · rw [BiMap.get_value_foldl_of_not_mem _ _ _ hk.1,
          BiMap.get_value_insert, if_pos rfl]
      · rw [BiMap.get_key_foldl_of_not_mem _ _ _ hv.1,
          BiMap.get_key_insert, if_pos rfl]
    · exact ih _ hk.2 hv.2 hmem

/-- C7: for every sequence of `BiMap.insert` calls with pairwise distinct
keys and pairwise distinct values, `get_value` and `get_key` are mutually
inverse on the inserted pairs, and lookups of never-inserted keys and
values return `None`. -/
theorem bimap_bijection (ps : List (ℤ × ℕ))
    (hk : (ps.map Prod.fst).Nodup) (hv : (ps.map Prod.snd).Nodup) :
    (∀ p ∈ ps, (BiMap.ofList ps).get_value p.1 = some p.2 ∧
      (BiMap.ofList ps).get_key p.2 = some p.1) ∧
    (∀ k, k ∉ ps.map Prod.fst → (BiMap.ofList ps).get_value k = none) ∧
    (∀ v, v ∉ ps.map Prod.snd → (BiMap.ofList ps).get_key v = none) := by
  refine ⟨fun p hp => BiMap.lookup_foldl_of_mem ps BiMap.empty hk hv hp,
    fun k h => ?_, fun v h => ?_⟩
  · rw [BiMap.ofList, BiMap.get_value_foldl_of_not_mem ps BiMap.empty k h]
    rfl
  · rw [BiMap.ofList, BiMap.get_key_foldl_of_not_mem ps BiMap.empty v h]
    rfl

/-- Witness for C7 at the concrete insert sequence `[(1, 0), (2, 1)]`. -/
theorem bimap_bijection_witness :
    (([(1, 0), (2, 1)] : List (ℤ × ℕ)).map Prod.fst).Nodup ∧
    (([(1, 0), (2, 1)] : List (ℤ × ℕ)).map Prod.snd).Nodup ∧
    ((∀ p ∈ ([(1, 0), (2, 1)] : List (ℤ × ℕ)),
        (BiMap.ofList [(1, 0), (2, 1)]).get_value p.1 = some p.2 ∧
        (BiMap.ofList [(1, 0), (2, 1)]).get_key p.2 = some p.1) ∧
      (∀ k, k ∉ ([(1, 0), (2, 1)] : List (ℤ × ℕ)).map Prod.fst →
        (BiMap.ofList [(1, 0), (2, 1)]).get_value k = none) ∧
      (∀ v, v ∉ ([(1, 0), (2, 1)] : List (ℤ × ℕ)).map Prod.snd →
        (BiMap.ofList [(1, 0), (2, 1)]).get_key v = none)) :=
  ⟨by decide, by decide, bimap_bijection [(1, 0), (2, 1)] (by decide) (by decide)⟩

/-- C10: re-inserting an existing key `k` with a new value `v2` overwrites
the forward entry and adds a reverse entry for `v2`, but the stale reverse
entry for the old value `v1` still points to `k`, so the two directions are
no longer mutually inverse. -/
theorem bimap_insert_overwrite (m : BiMap) (k : ℤ) (v1 v2 : ℕ) (h : v1 ≠ v2) :
    ((m.insert k v1).insert k v2).get_value k = some v2 ∧
    ((m.insert k v1).insert k v2).get_key v2 = some k ∧
    ((m.insert k v1).insert k v2).get_key v1 = some k ∧
    ((m.insert k v1).insert k v2).get_value k ≠ some v1 := by
  refine ⟨?_, ?_, ?_, ?_⟩
  · simp [BiMap.insert, BiMap.get_value]
  · simp [BiMap.insert, BiMap.get_key]
  · simp [BiMap.insert, BiMap.get_key, h.symm]
  · simp [BiMap.insert, BiMap.get_value, h.symm]

/-- Witness for C10 at the empty map with `k = 5`, `v1 = 0`, `v2 = 1`. -/
theorem bimap_insert_overwrite_witness :
    (0 : ℕ) ≠ 1 ∧
    (((BiMap.empty.insert 5 0).insert 5 1).get_value 5 = some 1 ∧
      ((BiMap.empty.insert 5 0).insert 5 1).get_key 1 = some 5 ∧
      ((BiMap.empty.insert 5 0).insert 5 1).get_key 0 = some 5 ∧
      ((BiMap.empty.insert 5 0).insert 5 1).get_value 5 ≠ some 0) :=
  ⟨by decide, bimap_insert_overwrite BiMap.empty 5 0 1 (by decide)⟩

/-- Counterexample for C9: `add_edge` does not reject the empty edge — it
appends `[]` to the edge list like any other input (the Python body is a
bare `self.edges.append(e)` with no check at all). -/
theorem add_edge_accepts_empty_counterexample :
    (Hypergraph.add_edge ⟨1, [], [0]⟩ []).edges = [[]] := rfl

/-- C9 (amended): `add_edge` appends the given hyperedge unchanged and
performs no validation whatsoever; every input, the empty edge included, is
accepted, and no other field of the model changes. -/
theorem add_edge_appends (g : Hypergraph) (e : List ℕ) :
    (g.add_edge e).edges = g.edges ++ [e] ∧
    (g.add_edge e).n = g.n ∧ (g.add_edge e).weights = g.weights :=
  ⟨rfl, rfl, rfl⟩

/-- Counterexample for C8: `set_weight` is an operation available on the
model and it changes a vertex weight after construction (as
`Solver.__init__` itself does, calling it after `Hypergraph(len(...))`
returned). -/
theorem set_weight_mutates_counterexample :
    ((Hypergraph.init 1).set_weight 0 5).weights = [5] ∧
    (Hypergraph.init 1).weights = [0] := ⟨rfl, rfl⟩

/-- C3: whenever exact-mode `compute_hs` returns (any fuel, any hypergraph,
any backend behaviour, forced selection and repair included), the returned
selection intersects every stored edge. -/
theorem compute_hs_exact_covers (backend : Backend) :
    ∀ (fuel : ℕ) (g : Hypergraph) (r : List ℕ),
      compute_hs_exact backend fuel g = .ok r →
      ∀ e ∈ g.edges, ∃ v ∈ r, v ∈ e := by
  intro fuel
  induction fuel with
  | zero => intro g r h; cases h
  | succ fuel ih =>
    intro g r h e he
    rw [compute_hs_exact, compute_hs_exact_step] at h
    by_cases hE : g.edges.isEmpty
    · rw [if_pos hE] at h
      rw [List.isEmpty_iff] at hE
      rw [hE] at he
      cases he
    · rw [if_neg hE] at h
      set decoded := decode g.n (backend g.n g.weights g.edges) with hdec
      rcases hopt : (if decoded.isEmpty then ((g.edges.headD []).head?.map fun v => [v])
          else some decoded) with _ | result0
      · rw [hopt] at h; cases h
      · rw [hopt] at h
        dsimp only at h
        by_cases hU : (unhitEdges result0 g.edges).isEmpty
        · rw [if_pos hU] at h
          cases h
          rw [List.isEmpty_iff] at hU
          have : hitsEdge r e = true := by
            by_contra hcon
            have : e ∈ unhitEdges r g.edges :=
              List.mem_filter.mpr ⟨he, by simp [hcon]⟩
            rw [hU] at this
            cases this
          rcases List.any_eq_true.mp this with ⟨v, hv, hve⟩
          exact ⟨v, hv, by simpa using hve⟩
        · rw [if_neg hU] at h
          rcases hrec : compute_hs_exact backend fuel ⟨g.n, unhitEdges result0 g.edges,
              List.replicate g.n 0⟩ with r' | _ | _
          · rw [hrec] at h
            cases h
            by_cases hhit : hitsEdge result0 e = true
            · rcases List.any_eq_true.mp hhit with ⟨v, hv, hve⟩
              exact ⟨v, List.mem_append_left _ hv, by simpa using hve⟩
            · have hmem : e ∈ unhitEdges result0 g.edges :=
                List.mem_filter.mpr ⟨he, by simp [hhit]⟩
              rcases ih _ _ hrec e hmem with ⟨v, hv, hve⟩
              exact ⟨v, List.mem_append_right _ hv, hve⟩
          · rw [hrec] at h; cases h
          · rw [hrec] at h; cases h

/-- Witness for C3: a backend that returns no values on the model with the
single edge `[0]`; the forced selection of the first vertex of the first
edge yields `[0]`, which covers the edge. -/
theorem compute_hs_exact_covers_witness :
    compute_hs_exact (fun _ _ _ => []) 2 ⟨1, [[0]], [0]⟩ = .ok [0] ∧
    ∀ e ∈ (Hypergraph.mk 1 [[0]] [0]).edges, ∃ v ∈ [0], v ∈ e :=
  ⟨rfl, compute_hs_exact_covers (fun _ _ _ => []) 2 ⟨1, [[0]], [0]⟩ [0] rfl⟩

lemma compute_hs_exact_badBackend_step (fuel : ℕ) :
    compute_hs_exact badBackend (fuel+1) loopModel =
      (match compute_hs_exact badBackend fuel loopModel with
       | .ok r => .ok (1 :: r)
       | .err => .err
       | .fuelOut => .fuelOut) := rfl

lemma compute_hs_exact_badBackend_fuelOut (fuel : ℕ) :
    compute_hs_exact badBackend fuel loopModel = .fuelOut := by
  induction fuel with
  | zero => rfl
  | succ fuel ih => rw [compute_hs_exact_badBackend_step, ih]

/-- Counterexample for C4: under the backend behaviour `badBackend` the
repair recursion on `loopModel` never terminates — the repair pass is not a
strict subset step, because the decoded selection hits no edge and the
sub-model equals the parent model. -/
theorem exact_repair_diverges_counterexample :
    ¬ ExactTerminates badBackend loopModel := by
  rintro ⟨fuel, r, h⟩
  rw [compute_hs_exact_badBackend_fuelOut fuel] at h
  cases h

/-- Filtering drops the length strictly when some member fails the
predicate. -/
lemma length_filter_lt_of_mem {α : Type} (p : α → Bool) {l : List α} {e : α}
    (he : e ∈ l) (hp : p e = false) : (l.filter p).length < l.length := by
  induction l with
  | nil => cases he
  | cons a t ih =>
    rcases List.mem_cons.mp he with rfl | hmem
    · rw [List.filter_cons, hp]
      exact Nat.lt_succ_of_le (List.length_filter_le p t)
    · rw [List.filter_cons]
      cases hpa : p a
      · exact Nat.lt_succ_of_lt (ih hmem)
      · simpa using Nat.succ_lt_succ (ih hmem)

/-- C4 (amended): the base case with no edges returns the empty set without
consulting the backend (the result is the same for every backend), and the
repair recursion terminates — in depth at most the number of edges —
whenever the stored edges are non-empty and the backend behaviour is such
that every non-empty decoded selection hits at least one edge of the
queried model (each repair call then operates on a strict subset of the
parent's edges). -/
theorem exact_repair_termination (backend : Backend)
    (hb : ∀ (n : ℕ) (w : List ℚ) (es : List (List ℕ)),
      decode n (backend n w es) ≠ [] →
      ∃ e ∈ es, ∃ v ∈ decode n (backend n w es), v ∈ e) :
    (∀ (b : Backend) (fuel n : ℕ) (w : List ℚ), 0 < fuel →
      compute_hs_exact b fuel ⟨n, [], w⟩ = .ok []) ∧
    (∀ (fuel : ℕ) (g : Hypergraph), g.edges.length < fuel →
      (∀ e ∈ g.edges, e ≠ []) →
      ∃ r, compute_hs_exact backend fuel g = .ok r) := by
  constructor
  · intro b fuel n w hfuel
    cases fuel with
    | zero => omega
    | succ fuel => rfl
  · intro fuel
    induction fuel with
    | zero => intro g hlen; omega
    | succ fuel ih =>
      intro g hlen hne
      rw [compute_hs_exact, compute_hs_exact_step]
      by_cases hE : g.edges.isEmpty
      · exact ⟨[], by rw [if_pos hE]⟩
      · rw [if_neg hE]
        set decoded := decode g.n (backend g.n g.weights g.edges) with hdec
        have hEne : g.edges ≠ [] := by
          intro hcon; rw [hcon] at hE; exact hE rfl
        have hhd : g.edges.headD [] ∈ g.edges := by
          rcases hGE : g.edges with _ | ⟨e0, rest⟩
          · exact absurd hGE hEne
          · exact List.mem_cons_self _ _
        -- whichever branch produces it, the selection hits at least one edge
        have key : ∀ result0,
            (if decoded.isEmpty then ((g.edges.headD []).head?.map fun v => [v])
             else some decoded) = some result0 →
            ∃ e ∈ g.edges, hitsEdge result0 e = true := by
          intro result0 hopt
          by_cases hD : decoded.isEmpty
          · rw [if_pos hD] at hopt
            rcases hcons : g.edges.headD [] with _ | ⟨v0, vs⟩
            · exact absurd hcons (hne _ hhd)
            · rw [hcons] at hopt
              simp only [List.head?, Option.map] at hopt
              cases hopt
              refine ⟨g.edges.headD [], hhd, ?_⟩
              have hv0 : v0 ∈ g.edges.headD [] := by
                rw [hcons]; exact List.mem_cons_self _ _
              exact List.any_eq_true.mpr
                ⟨v0, List.mem_singleton.mpr rfl, by simpa using hv0⟩
          · rw [if_neg hD] at hopt
            cases hopt
            have hdne : decoded ≠ [] := by
              intro hcon; rw [hcon] at hD; exact hD rfl
            rcases hb g.n g.weights g.edges hdne with ⟨e, he, v, hv, hve⟩
            exact ⟨e, he, List.any_eq_true.mpr ⟨v, hv, by simpa using hve⟩⟩
        rcases hopt : (if decoded.isEmpty then ((g.edges.headD []).head?.map fun v => [v])
            else some decoded) with _ | result0
        · -- the forced-selection branch cannot fail: the first edge is non-empty
          exfalso
          by_cases hD : decoded.isEmpty
          · rw [if_pos hD] at hopt
            rcases hcons : g.edges.headD [] with _ | ⟨v0, vs⟩
            · exact absurd hcons (hne _ hhd)
            · rw [hcons] at hopt
              simp only [List.head?, Option.map] at hopt
              cases hopt
          · rw [if_neg hD] at hopt; cases hopt
        · dsimp only
          by_cases hU : (unhitEdges result0 g.edges).isEmpty
          · exact ⟨result0, by rw [if_pos hU]⟩
          · rw [if_neg hU]
            have hstrict : (unhitEdges result0 g.edges).length < g.edges.length := by
              rcases key result0 hopt with ⟨e, he, hhit⟩
              exact length_filter_lt_of_mem _ he (by simp [hhit])
            have hsub : ∀ e ∈ unhitEdges result0 g.edges, e ≠ [] :=
              fun e he => hne e (List.mem_of_mem_filter he)
            rcases ih ⟨g.n, unhitEdges result0 g.edges, List.replicate g.n 0⟩
                (by simpa using Nat.lt_of_lt_of_le hstrict (Nat.le_of_lt_succ hlen)) hsub
              with ⟨r', hr'⟩
            exact ⟨result0 ++ r', by rw [hr']⟩

/-- Witness for C4 (amended): the trivial backend returning no values
satisfies the hitting hypothesis vacuously, and on the one-edge model the
repair recursion returns within fuel 2. -/
theorem exact_repair_termination_witness :
    (∀ (n : ℕ) (w : List ℚ) (es : List (List ℕ)),
      decode n ((fun _ _ _ => ([] : List ℚ)) n w es) ≠ [] →
      ∃ e ∈ es, ∃ v ∈ decode n ((fun _ _ _ => ([] : List ℚ)) n w es), v ∈ e) ∧
    ((∀ (b : Backend) (fuel n : ℕ) (w : List ℚ), 0 < fuel →
      compute_hs_exact b fuel ⟨n, [], w⟩ = .ok []) ∧
    (∀ (fuel : ℕ) (g : Hypergraph), g.edges.length < fuel →
      (∀ e ∈ g.edges, e ≠ []) →
      ∃ r, compute_hs_exact (fun _ _ _ => []) fuel g = .ok r)) :=
  ⟨fun _ _ _ h => absurd rfl h,
   exact_repair_termination (fun _ _ _ => []) (fun _ _ _ h => absurd rfl h)⟩

/-! ### Priority-queue lemmas -/

lemma pairLe_iff (a b : ℤ × ℕ) :
    pairLe a b = true ↔ a.1 < b.1 ∨ (a.1 = b.1 ∧ a.2 ≤ b.2) := by
  simp [pairLe]

lemma pairLe_trans {a b c : ℤ × ℕ} (h1 : pairLe a b = true)
    (h2 : pairLe b c = true) : pairLe a c = true := by
  rw [pairLe_iff] at *
  omega

lemma pairLe_of_not {a b : ℤ × ℕ} (h : ¬ pairLe a b = true) :
    pairLe b a = true := by
  rw [pairLe_iff] at *
  omega

lemma popMin_eq_none {q : List (ℤ × ℕ)} (h : popMin q = none) : q = [] := by
  cases q with
  | nil => rfl
  | cons a rest =>
    rw [popMin] at h
    rcases hrest : popMin rest with _ | ⟨m, rest2⟩ <;> rw [hrest] at h <;>
      dsimp only at h
    · cases h
    · by_cases hle : pairLe a m = true
      · rw [if_pos hle] at h; cases h
      · rw [if_neg hle] at h; cases h

lemma popMin_perm : ∀ {q : List (ℤ × ℕ)} {m : ℤ × ℕ} {rest : List (ℤ × ℕ)},
    popMin q = some (m, rest) → q.Perm (m :: rest) := by
  intro q
  induction q with
  | nil => intro m rest h; cases h
  | cons a t ih =>
    intro m rest h
    rw [popMin] at h
    rcases ht : popMin t with _ | ⟨m0, t0⟩ <;> rw [ht] at h <;>
      dsimp only at h
    · cases h; exact List.Perm.refl _
    · by_cases hle : pairLe a m0 = true
      · rw [if_pos hle] at h; cases h; exact List.Perm.refl _
      · rw [if_neg hle] at h
        cases h
        exact ((ih ht).cons a).trans (List.Perm.swap _ _ _)

lemma popMin_min : ∀ {q : List (ℤ × ℕ)} {m : ℤ × ℕ} {rest : List (ℤ × ℕ)},
    popMin q = some (m, rest) → ∀ x ∈ rest, pairLe m x = true := by
  intro q
  induction q with
  | nil => intro m rest h; cases h
  | cons a t ih =>
    intro m rest h x hx
    rw [popMin] at h
    rcases ht : popMin t with _ | ⟨m0, t0⟩ <;> rw [ht] at h <;>
      dsimp only at h
    · cases h
      rw [popMin_eq_none ht] at hx
      cases hx
    · by_cases hle : pairLe a m0 = true
      · rw [if_pos hle] at h
        cases h
        rcases List.mem_cons.mp ((popMin_perm ht).mem_iff.mp hx) with rfl | hxt
        · exact hle
        · exact pairLe_trans hle (ih ht x hxt)
      · rw [if_neg hle] at h
        cases h
        rcases List.mem_cons.mp hx with rfl | hxt
        · exact pairLe_of_not hle
        · exact ih ht x hxt

/-! ### List and Finset access helpers -/

lemma get_opt_eq_getD {l : List (Finset ℕ)} {w : ℕ} (h : w < l.length) :
    l.get? w = some (l.getD w ∅) := by
  rw [List.getD_eq_getElem?_getD, List.get?_eq_getElem?, List.getElem?_eq_getElem h]
  rfl

lemma getD_set_self {l : List (Finset ℕ)} {w : ℕ} (x : Finset ℕ)
    (h : w < l.length) : (l.set w x).getD w ∅ = x := by
  rw [List.getD_eq_getElem?_getD, List.getElem?_eq_getElem (by simpa using h)]
  simp

lemma getD_set_ne {l : List (Finset ℕ)} {u w : ℕ} (x : Finset ℕ)
    (h : u ≠ w) : (l.set w x).getD u ∅ = l.getD u ∅ := by
  rw [List.getD_eq_getElem?_getD, List.getD_eq_getElem?_getD,
    List.getElem?_set_ne (Ne.symm h)]

lemma erase_sdiff_comm (s T : Finset ℕ) (i : ℕ) :
    (s.erase i) \ T = s \ insert i T := by
  ext j
  simp only [Finset.mem_erase, Finset.mem_sdiff, Finset.mem_insert]
  tauto

lemma sdiff_insert_of_not_mem_self (s T : Finset ℕ) (i : ℕ) (h : i ∉ s) :
    s \ insert i T = s \ T := by
  ext j
  simp only [Finset.mem_sdiff, Finset.mem_insert]
  constructor
  · rintro ⟨hj, hni⟩; exact ⟨hj, fun hh => hni (Or.inr hh)⟩
  · rintro ⟨hj, hni⟩
    refine ⟨hj, ?_⟩
    rintro (rfl | hh)
    · exact h hj
    · exact hni hh

lemma sdiff_eq_self_of_disjoint (s T : Finset ℕ) (h : ∀ j ∈ T, j ∉ s) :
    s \ T = s := by
  ext j
  simp only [Finset.mem_sdiff]
  exact ⟨fun hj => hj.1, fun hj => ⟨hj, fun hT => h j hT hj⟩⟩

lemma sumCard_set (watch : List (Finset ℕ)) (w : ℕ) (s2 : Finset ℕ)
    (h : w < watch.length) :
    sumCard (watch.set w s2) + (watch.getD w ∅).card = sumCard watch + s2.card := by
  induction watch generalizing w with
  | nil => cases h
  | cons t rest ih =>
    cases w with
    | zero =>
      simp only [List.set, sumCard, List.map_cons, List.sum_cons, List.getD_cons_zero]
      omega
    | succ w =>
      have hw : w < rest.length := by simpa using h
      have := ih w hw
      simp only [List.set, sumCard, List.map_cons, List.sum_cons,
        List.getD_cons_succ] at *
      omega

/-! ### Specification of the inner removal loop -/

/-- Full characterisation of `removeOne` when its preconditions hold: the
edge's vertex list is duplicate-free, every vertex is a dict key, and the
edge index is watched by each of its vertices.  Then no KeyError occurs,
the edge index is removed from exactly its vertices' watch sets, each of
those vertices gets a queue entry carrying its updated degree, the queue
only grows, and the measure `2·sumCard + length` does not increase. -/
lemma removeOne_spec (i : ℕ) :
    ∀ (e : List ℕ) (watch : List (Finset ℕ)) (queue : List (ℤ × ℕ)),
      e.Nodup →
      (∀ w ∈ e, w < watch.length) →
      (∀ w ∈ e, i ∈ watch.getD w ∅) →
      ∃ w1 q1, removeOne i watch queue e = some (w1, q1) ∧
        w1.length = watch.length ∧
        (∀ u, u < watch.length →
          w1.getD u ∅ = if u ∈ e then (watch.getD u ∅).erase i
                        else watch.getD u ∅) ∧
        (∀ u ∈ e, (-((((watch.getD u ∅).erase i).card : ℕ) : ℤ), u) ∈ q1) ∧
        (∀ x ∈ queue, x ∈ q1) ∧
        (∀ x ∈ q1, x ∈ queue ∨ x.2 ∈ e) ∧
        2 * sumCard w1 + q1.length ≤ 2 * sumCard watch + queue.length := by
  intro e
  induction e with
  | nil =>
    intro watch queue _ _ _
    exact ⟨watch, queue, rfl, rfl, fun u _ => by simp, fun u hu => absurd hu
      (List.not_mem_nil u), fun x hx => hx, fun x hx => Or.inl hx, le_refl _⟩
  | cons w ws ih =>
    intro watch queue hnd hlt hmem
    have hw : w < watch.length := hlt w (List.mem_cons_self _ _)
    have hi : i ∈ watch.getD w ∅ := hmem w (List.mem_cons_self _ _)
    have hwws : w ∉ ws := (List.nodup_cons.mp hnd).1
    rw [removeOne, get_opt_eq_getD hw]
    dsimp only
    rw [if_pos hi]
    rcases ih (watch.set w ((watch.getD w ∅).erase i))
        (queue ++ [(-(((((watch.getD w ∅).erase i)).card : ℕ) : ℤ), w)])
        (List.nodup_cons.mp hnd).2
        (fun u hu => by
          rw [List.length_set]; exact hlt u (List.mem_cons_of_mem _ hu))
        (fun u hu => by
          have hne : u ≠ w := fun hh => hwws (hh ▸ hu)
          rw [getD_set_ne _ hne]
          exact hmem u (List.mem_cons_of_mem _ hu))
      with ⟨w1, q1, heq, hlen, hpt, hpush, hsub, hcls, hmeas⟩
    refine ⟨w1, q1, heq, by rw [hlen, List.length_set], ?_, ?_, ?_, ?_, ?_⟩
    · -- pointwise description of the final watch sets
      intro u hu
      have hu1 : u < (watch.set w ((watch.getD w ∅).erase i)).length := by
        rw [List.length_set]; exact hu
      rcases eq_or_ne u w with rfl | hne
      · rw [hpt u hu1, if_neg hwws, getD_set_self _ hw,
          if_pos (List.mem_cons_self _ _)]
      · rw [hpt u hu1, getD_set_ne _ hne]
        by_cases hus : u ∈ ws
        · rw [if_pos hus, if_pos (List.mem_cons_of_mem _ hus)]
        · rw [if_neg hus, if_neg (fun hh => by
            rcases List.mem_cons.mp hh with hh | hh
            · exact hne hh
            · exact hus hh)]
    · -- every processed vertex got its updated-degree entry
      intro u hu
      rcases List.mem_cons.mp hu with rfl | hus
      · exact hsub _ (List.mem_append_right _ (List.mem_singleton.mpr rfl))
      · have hne : u ≠ w := fun hh => hwws (hh ▸ hus)
        have := hpush u hus
        rw [getD_set_ne _ hne] at this
        exact this
    · exact fun x hx => hsub x (List.mem_append_left _ hx)
    · intro x hx
      rcases hcls x hx with hx1 | hx2
      · rcases List.mem_append.mp hx1 with hx1 | hx1
        · exact Or.inl hx1
        · rw [List.mem_singleton.mp hx1]
          exact Or.inr (List.mem_cons_self _ _)
      · exact Or.inr (List.mem_cons_of_mem _ hx2)
    · have hcalc := sumCard_set watch w ((watch.getD w ∅).erase i) hw
      have hcard : ((watch.getD w ∅).erase i).card + 1 = (watch.getD w ∅).card :=
        Finset.card_erase_add_one hi
      rw [List.length_append] at hmeas
      simp only [List.length_singleton] at hmeas
      omega

/-! ### Specification of the outer processing loop -/

/-- Full characterisation of `processEdges` over a duplicate-free list `l`
of edge indices, when every index is in range, every listed edge is
duplicate-free, each listed edge is fully watched by its vertices, and
watch sets only contain indices of edges containing the vertex.  Then no
error occurs, the listed indices are removed from all watch sets, every
vertex of a listed edge gets a queue entry carrying its final degree, the
queue only grows, and the measure does not increase. -/
lemma processEdges_spec (edges : List (List ℕ)) :
    ∀ (l : List ℕ) (watch : List (Finset ℕ)) (queue : List (ℤ × ℕ)),
      l.Nodup →
      (∀ i ∈ l, i < edges.length) →
      (∀ i ∈ l, (edges.getD i []).Nodup) →
      (∀ i ∈ l, ∀ w ∈ edges.getD i [], w < watch.length ∧ i ∈ watch.getD w ∅) →
      (∀ u, u < watch.length → ∀ i ∈ l, i ∈ watch.getD u ∅ →
        u ∈ edges.getD i []) →
      ∃ w2 q2, processEdges edges watch queue l = some (w2, q2) ∧
        w2.length = watch.length ∧
        (∀ u, u < watch.length →
          w2.getD u ∅ = (watch.getD u ∅) \ l.toFinset) ∧
        (∀ u, u < watch.length → (∃ i ∈ l, u ∈ edges.getD i []) →
          (-(((w2.getD u ∅).card : ℕ) : ℤ), u) ∈ q2) ∧
        (∀ x ∈ queue, x ∈ q2) ∧
        (∀ x ∈ q2, x ∈ queue ∨ x.2 < watch.length) ∧
        2 * sumCard w2 + q2.length ≤ 2 * sumCard watch + queue.length := by
  intro l
  induction l with
  | nil =>
    intro watch queue _ _ _ _ _
    refine ⟨watch, queue, rfl, rfl, fun u _ => by simp, ?_, fun x hx => hx,
      fun x hx => Or.inl hx, le_refl _⟩
    rintro u _ ⟨i, hi, _⟩
    exact absurd hi (List.not_mem_nil i)
  | cons i is ih =>
    intro watch queue hnd hrange hednd hfull hcls
    have hir : i < edges.length := hrange i (List.mem_cons_self _ _)
    have hinotis : i ∉ is := (List.nodup_cons.mp hnd).1
    have hgete : edges.get? i = some (edges.getD i []) := by
      rw [List.getD_eq_getElem?_getD, List.get?_eq_getElem?,
        List.getElem?_eq_getElem hir]
      rfl
    rw [processEdges, hgete]
    dsimp only
    rcases removeOne_spec i (edges.getD i []) watch queue
        (hednd i (List.mem_cons_self _ _))
        (fun w hw => (hfull i (List.mem_cons_self _ _) w hw).1)
        (fun w hw => (hfull i (List.mem_cons_self _ _) w hw).2)
      with ⟨w1, q1, heq1, hlen1, hpt1, hpush1, hsub1, hcls1, hmeas1⟩
    rw [heq1]
    dsimp only
    rcases ih w1 q1 (List.nodup_cons.mp hnd).2
        (fun j hj => hrange j (List.mem_cons_of_mem _ hj))
        (fun j hj => hednd j (List.mem_cons_of_mem _ hj))
        (fun j hj w hw => by
          have hwlt : w < watch.length :=
            (hfull j (List.mem_cons_of_mem _ hj) w hw).1
          have hjw : j ∈ watch.getD w ∅ :=
            (hfull j (List.mem_cons_of_mem _ hj) w hw).2
          have hji : j ≠ i := fun hh => hinotis (hh ▸ hj)
          refine ⟨by rw [hlen1]; exact hwlt, ?_⟩
          rw [hpt1 w hwlt]
          by_cases hwe : w ∈ edges.getD i []
          · rw [if_pos hwe]
            exact Finset.mem_erase.mpr ⟨hji, hjw⟩
          · rw [if_neg hwe]
            exact hjw)
        (fun u hu j hj hjw => by
          have hul : u < watch.length := by rw [hlen1] at hu; exact hu
          have hjwatch : j ∈ watch.getD u ∅ := by
            rw [hpt1 u hul] at hjw
            by_cases hue : u ∈ edges.getD i []
            · rw [if_pos hue] at hjw
              exact Finset.mem_of_mem_erase hjw
            · rw [if_neg hue] at hjw
              exact hjw
          exact hcls u hul j (List.mem_cons_of_mem _ hj) hjwatch)
      with ⟨w2, q2, heq2, hlen2, hpt2, hpush2, hsub2, hcls2, hmeas2⟩
    refine ⟨w2, q2, heq2, by rw [hlen2, hlen1], ?_, ?_, ?_, ?_, ?_⟩
    · -- pointwise: all of i :: is removed from every watch set
      intro u hu
      have hu1 : u < w1.length := by rw [hlen1]; exact hu
      rw [hpt2 u hu1, hpt1 u hu, List.toFinset_cons]
      by_cases hue : u ∈ edges.getD i []
      · rw [if_pos hue, erase_sdiff_comm]
      · rw [if_neg hue]
        have hinot : i ∉ watch.getD u ∅ := fun hh =>
          hue (hcls u hu i (List.mem_cons_self _ _) hh)
        rw [sdiff_insert_of_not_mem_self _ _ _ hinot]
    · -- final-degree queue entries for every touched vertex
      intro u hu hex
      have hu1 : u < w1.length := by rw [hlen1]; exact hu
      by_cases hus : ∃ j ∈ is, u ∈ edges.getD j []
      · exact hpush2 u hu1 hus
      · rcases hex with ⟨j, hj, huj⟩
        rcases List.mem_cons.mp hj with hji | hjs
        · -- u is touched only by edge j = i: its `removeOne` entry is final
          subst hji
          have hentry := hpush1 u huj
          have hfinal : w2.getD u ∅ = (watch.getD u ∅).erase j := by
            rw [hpt2 u hu1, hpt1 u hu, if_pos huj]
            apply sdiff_eq_self_of_disjoint
            intro k hk hkin
            have hkis : k ∈ is := by simpa using hk
            have hkwatch : k ∈ watch.getD u ∅ :=
              Finset.mem_of_mem_erase hkin
            exact hus ⟨k, hkis, hcls u hu k (List.mem_cons_of_mem _ hkis) hkwatch⟩
          rw [hfinal]
          exact hsub2 _ hentry
        · exact absurd ⟨j, hjs, huj⟩ hus
    · exact fun x hx => hsub2 x (hsub1 x hx)
    · intro x hx
      rcases hcls2 x hx with hx1 | hx2
      · rcases hcls1 x hx1 with hx3 | hx4
        · exact Or.inl hx3
        · exact Or.inr (hfull i (List.mem_cons_self _ _) x.2 hx4).1
      · rw [hlen1] at hx2
        exact Or.inr hx2
    · omega

lemma getD_mem_of_lt {l : List (List ℕ)} {i : ℕ} (h : i < l.length) :
    l.getD i [] ∈ l := by
  rw [List.getD_eq_getElem?_getD, List.getElem?_eq_getElem h]
  exact List.getElem_mem h

lemma snapshot_mem (L : ℕ) (s : Finset ℕ) (i : ℕ) :
    i ∈ (List.range L).filter (fun j => decide (j ∈ s)) ↔ (i < L ∧ i ∈ s) := by
  simp [List.mem_filter, List.mem_range]

lemma snapshot_nodup (L : ℕ) (s : Finset ℕ) :
    ((List.range L).filter (fun j => decide (j ∈ s))).Nodup :=
  List.Nodup.filter _ (List.nodup_range L)

/-! ### The main loop invariant

The invariant carried through `hsLoop`:
- the watch list has one entry per vertex;
- a vertex `u` watches exactly the indices of the edges containing `u`
  that are not yet covered by the selection built so far;
- every vertex has a queue entry carrying its current true degree;
- queue entries only mention vertices `< n`;
- the fuel exceeds the measure `phi`.
Under the well-formedness of the claim (edges non-empty, in range,
duplicate-free) the loop then returns a selection covering every edge. -/
lemma hsLoop_spec (n : ℕ) (edges : List (List ℕ))
    (hwf : ∀ e ∈ edges, e ≠ [] ∧ (∀ v ∈ e, v < n) ∧ e.Nodup) :
    ∀ (fuel : ℕ) (watch : List (Finset ℕ)) (queue : List (ℤ × ℕ))
      (result : List ℕ),
      watch.length = n →
      (∀ u, u < n → ∀ i, i ∈ watch.getD u ∅ ↔
        (i < edges.length ∧ u ∈ edges.getD i [] ∧
          ∀ v ∈ result, v ∉ edges.getD i [])) →
      (∀ u, u < n → (-((((watch.getD u ∅).card : ℕ)) : ℤ), u) ∈ queue) →
      (∀ x ∈ queue, x.2 < n) →
      phi watch queue < fuel →
      ∃ r, hsLoop edges fuel watch queue result = .ok r ∧
        (∀ v ∈ result, v ∈ r) ∧
        (∀ i, i < edges.length → ∃ v ∈ r, v ∈ edges.getD i []) := by
  intro fuel
  induction fuel with
  | zero =>
    intro watch queue result _ _ _ _ hfuel
    exact absurd hfuel (by omega)
  | succ fuel ih =>
    intro watch queue result hlen hinv2 hinv3 hinv4 hfuel
    rw [hsLoop]
    rcases hpop : popMin queue with _ | ⟨⟨deg, v⟩, queue2⟩ <;> dsimp only
    · -- empty queue: possible only for n = 0, where well-formed edges
      -- cannot exist
      have hq : queue = [] := popMin_eq_none hpop
      have hn : n = 0 := by
        by_contra hh
        have h0 := hinv3 0 (Nat.pos_of_ne_zero hh)
        rw [hq] at h0
        exact absurd h0 (List.not_mem_nil _)
      refine ⟨result, rfl, fun v hv => hv, fun i hi => ?_⟩
      exfalso
      rcases hwf (edges.getD i []) (getD_mem_of_lt hi) with ⟨hne, hrange, _⟩
      rcases hE : edges.getD i [] with _ | ⟨v0, vs⟩
      · exact hne hE
      · have := hrange v0 (by rw [hE]; exact List.mem_cons_self _ _)
        omega
    · have hmemq : (deg, v) ∈ queue :=
        (popMin_perm hpop).mem_iff.mpr (List.mem_cons_self _ _)
      have hvn : v < n := hinv4 (deg, v) hmemq
      have hlq : queue.length = queue2.length + 1 := by
        have := (popMin_perm hpop).length_eq
        simpa using this
      rw [get_opt_eq_getD (by rw [hlen]; exact hvn)]
      dsimp only
      by_cases hstale : -deg ≠ (((watch.getD v ∅).card : ℕ) : ℤ)
      · -- stale entry: discard and continue
        rw [if_pos hstale]
        apply ih watch queue2 result hlen hinv2 ?_ ?_ ?_
        · intro u hu
          have hentry := hinv3 u hu
          rcases List.mem_cons.mp ((popMin_perm hpop).mem_iff.mp hentry)
            with heq | hq2
          · exfalso
            have h1 : -((((watch.getD u ∅).card : ℕ)) : ℤ) = deg :=
              (Prod.mk.injEq _ _ _ _).mp heq |>.1
            have h2 : u = v := (Prod.mk.injEq _ _ _ _).mp heq |>.2
            rw [h2] at h1
            omega
          · exact hq2
        · intro x hx
          exact hinv4 x ((popMin_perm hpop).mem_iff.mpr (List.mem_cons_of_mem _ hx))
        · rw [phi] at hfuel ⊢
          omega
      · push_neg at hstale
        rw [if_neg (not_not_intro hstale)]
        by_cases hdeg : deg = 0
        · -- live entry of degree 0: every watch set is empty, so every
          -- edge is covered
          rw [if_pos hdeg]
          refine ⟨result, rfl, fun v hv => hv, fun i hi => ?_⟩
          by_contra hcov
          push_neg at hcov
          rcases hwf (edges.getD i []) (getD_mem_of_lt hi) with ⟨hne, hrange, _⟩
          rcases hE : edges.getD i [] with _ | ⟨v0, vs⟩
          · exact hne hE
          · have hv0e : v0 ∈ edges.getD i [] := by
              rw [hE]; exact List.mem_cons_self _ _
            have hv0n : v0 < n := hrange v0 hv0e
            have hwatch : i ∈ watch.getD v0 ∅ :=
              (hinv2 v0 hv0n i).mpr ⟨hi, hv0e, fun x hx hxe => hcov x hx hxe⟩
            have hcard : 0 < (watch.getD v0 ∅).card :=
              Finset.card_pos.mpr ⟨i, hwatch⟩
            have hentry := hinv3 v0 hv0n
            rcases List.mem_cons.mp ((popMin_perm hpop).mem_iff.mp hentry)
              with heq | hq2
            · have h1 : -((((watch.getD v0 ∅).card : ℕ)) : ℤ) = deg :=
                (Prod.mk.injEq _ _ _ _).mp heq |>.1
              omega
            · have := popMin_min hpop _ hq2
              rw [pairLe_iff] at this
              dsimp only at this
              omega
        · -- live entry of positive degree: select the vertex and process
          -- its watched edges
          rw [if_neg hdeg]
          have hcardpos : 0 < (watch.getD v ∅).card := by
            rcases Nat.eq_zero_or_pos (watch.getD v ∅).card with h0 | h0
            · exfalso; rw [h0] at hstale; simp at hstale; omega
            · exact h0
          rcases processEdges_spec edges
              ((List.range edges.length).filter
                (fun j => decide (j ∈ watch.getD v ∅)))
              watch queue2
              (snapshot_nodup _ _)
              (fun i hil =>
                ((hinv2 v hvn i).mp ((snapshot_mem _ _ _).mp hil).2).1)
              (fun i hil =>
                (hwf _ (getD_mem_of_lt
                  ((hinv2 v hvn i).mp ((snapshot_mem _ _ _).mp hil).2).1)).2.2)
              (fun i hil w hw => by
                have his : i ∈ watch.getD v ∅ := ((snapshot_mem _ _ _).mp hil).2
                rcases (hinv2 v hvn i).mp his with ⟨hilt, hve, hunc⟩
                have hwn : w < n :=
                  (hwf _ (getD_mem_of_lt hilt)).2.1 w hw
                refine ⟨by rw [hlen]; exact hwn, ?_⟩
                exact (hinv2 w hwn i).mpr ⟨hilt, hw, hunc⟩)
              (fun u hu i hil hiu => by
                have hun : u < n := by rw [hlen] at hu; exact hu
                exact ((hinv2 u hun i).mp hiu).2.1)
            with ⟨w2, q2, heqP, hlenP, hptP, hpushP, hsubP, hclsP, hmeasP⟩
          rw [heqP]
          dsimp only
          have hsortF : ((List.range edges.length).filter
              (fun j => decide (j ∈ watch.getD v ∅))).toFinset = watch.getD v ∅ := by
            ext j
            rw [List.mem_toFinset, snapshot_mem]
            exact ⟨fun h => h.2, fun h => ⟨((hinv2 v hvn j).mp h).1, h⟩⟩
          have hcov2 : ∀ u, u < n → ∀ i,
              i ∈ w2.getD u ∅ ↔ (i < edges.length ∧ u ∈ edges.getD i [] ∧
                ∀ x ∈ result ++ [v], x ∉ edges.getD i []) := by
            intro u hu i
            rw [hptP u (by rw [hlen]; exact hu), hsortF, Finset.mem_sdiff]
            constructor
            · rintro ⟨hiu, hiS⟩
              rcases (hinv2 u hu i).mp hiu with ⟨hilt, hue, hunc⟩
              refine ⟨hilt, hue, ?_⟩
              intro x hx
              rcases List.mem_append.mp hx with hx | hx
              · exact hunc x hx
              · rw [List.mem_singleton.mp hx]
                intro hve
                exact hiS ((hinv2 v hvn i).mpr ⟨hilt, hve, hunc⟩)
            · rintro ⟨hilt, hue, hunc⟩
              have huncr : ∀ x ∈ result, x ∉ edges.getD i [] :=
                fun x hx => hunc x (List.mem_append_left _ hx)
              have hvne : v ∉ edges.getD i [] :=
                hunc v (List.mem_append_right _ (List.mem_singleton.mpr rfl))
              refine ⟨(hinv2 u hu i).mpr ⟨hilt, hue, huncr⟩, ?_⟩
              intro hiS
              exact hvne ((hinv2 v hvn i).mp hiS).2.1
          apply ih w2 q2 (result ++ [v]) (by rw [hlenP, hlen]) hcov2 ?_ ?_ ?_ |>.imp
          · intro r ⟨heq, hsubr, hcovr⟩
            exact ⟨heq, fun x hx => hsubr x (List.mem_append_left _ hx), hcovr⟩
          · -- every vertex still has a true-degree entry in the new queue
            intro u hu
            by_cases hex : ∃ i ∈ (List.range edges.length).filter
                (fun j => decide (j ∈ watch.getD v ∅)), u ∈ edges.getD i []
            · exact hpushP u (by rw [hlen]; exact hu) hex
            · have hfix : w2.getD u ∅ = watch.getD u ∅ := by
                rw [hptP u (by rw [hlen]; exact hu), hsortF]
                apply sdiff_eq_self_of_disjoint
                intro j hj hju
                exact hex ⟨j, (snapshot_mem _ _ _).mpr
                  ⟨((hinv2 v hvn j).mp hj).1, hj⟩,
                  ((hinv2 u hu j).mp hju).2.1⟩
              rw [hfix]
              have hentry := hinv3 u hu
              rcases List.mem_cons.mp ((popMin_perm hpop).mem_iff.mp hentry)
                with heq | hq2
              · exfalso
                have h2 : u = v := (Prod.mk.injEq _ _ _ _).mp heq |>.2
                rcases Finset.card_pos.mp hcardpos with ⟨i0, hi0⟩
                refine hex ⟨i0, (snapshot_mem _ _ _).mpr
                  ⟨((hinv2 v hvn i0).mp hi0).1, hi0⟩, ?_⟩
                rw [h2]
                exact ((hinv2 v hvn i0).mp hi0).2.1
              · exact hsubP _ hq2
          · intro x hx
            rcases hclsP x hx with hx1 | hx2
            · exact hinv4 x
                ((popMin_perm hpop).mem_iff.mpr (List.mem_cons_of_mem _ hx1))
            · rw [hlen] at hx2
              exact hx2
          · rw [phi] at hfuel ⊢
            omega

/-! ### Initial state of the heuristic -/

lemma watchInit_length (n : ℕ) (edges : List (List ℕ)) :
    (watchInit n edges).length = n := by
  simp [watchInit]

lemma watchInit_getD (n : ℕ) (edges : List (List ℕ)) {u : ℕ} (h : u < n) :
    (watchInit n edges).getD u ∅ =
      ((List.range edges.length).filter
        (fun i => decide (u ∈ edges.getD i []))).toFinset := by
  rw [watchInit, List.getD_eq_getElem?_getD,
    List.getElem?_eq_getElem (by simpa using h)]
  simp

lemma watchInit_mem (n : ℕ) (edges : List (List ℕ)) {u : ℕ} (h : u < n)
    (i : ℕ) :
    i ∈ (watchInit n edges).getD u ∅ ↔
      (i < edges.length ∧ u ∈ edges.getD i []) := by
  rw [watchInit_getD n edges h]
  simp [List.mem_filter, List.mem_range]

/-- C2 (amended): for every hypergraph whose stored edges are non-empty,
reference only vertices in `[0, n)` and list no vertex twice, the heuristic
`_hs_simple` returns (no KeyError, fuel suffices) and its selection
intersects every stored edge. -/
theorem hs_simple_covers (n : ℕ) (edges : List (List ℕ))
    (hwf : ∀ e ∈ edges, e ≠ [] ∧ (∀ v ∈ e, v < n) ∧ e.Nodup) :
    ∃ r, hs_simple n edges = .ok r ∧ ∀ e ∈ edges, ∃ v ∈ r, v ∈ e := by
  rcases hsLoop_spec n edges hwf
      (phi (watchInit n edges) (queueInit n edges) + 1)
      (watchInit n edges) (queueInit n edges) []
      (watchInit_length n edges)
      (fun u hu i => by
        rw [watchInit_mem n edges hu i]
        constructor
        · rintro ⟨h1, h2⟩
          exact ⟨h1, h2, fun v hv => absurd hv (List.not_mem_nil v)⟩
        · rintro ⟨h1, h2, _⟩
          exact ⟨h1, h2⟩)
      (fun u hu => by
        rw [queueInit]
        exact List.mem_map.mpr ⟨u, List.mem_range.mpr hu, rfl⟩)
      (fun x hx => by
        rw [queueInit] at hx
        rcases List.mem_map.mp hx with ⟨u, hu, rfl⟩
        simpa using List.mem_range.mp hu)
      (Nat.lt_succ_self _)
    with ⟨r, heq, _, hcov⟩
  refine ⟨r, by rw [hs_simple]; exact heq, fun e he => ?_⟩
  rcases List.mem_iff_getElem.mp he with ⟨i, hi, hei⟩
  have := hcov i hi
  rw [List.getD_eq_getElem?_getD, List.getElem?_eq_getElem hi] at this
  simpa [hei] using this

/-- Witness for C2 (amended) at the spec's Scenario A hypergraph
(3 vertices, edges `[[0, 1], [1, 2]]`). -/
theorem hs_simple_covers_witness :
    (∀ e ∈ ([[0, 1], [1, 2]] : List (List ℕ)),
      e ≠ [] ∧ (∀ v ∈ e, v < 3) ∧ e.Nodup) ∧
    (∃ r, hs_simple 3 [[0, 1], [1, 2]] = .ok r ∧
      ∀ e ∈ ([[0, 1], [1, 2]] : List (List ℕ)), ∃ v ∈ r, v ∈ e) :=
  ⟨by decide, hs_simple_covers 3 [[0, 1], [1, 2]] (by decide)⟩

/-- Counterexample for C2 as stated: on the hypergraph with one vertex and
the single non-empty in-range edge `[0, 0]` (a duplicated vertex), the
heuristic raises KeyError — the second `watch[0].remove(0)` for the same
edge fails — so no hitting set is returned. -/
theorem hs_simple_duplicate_counterexample :
    hs_simple 1 [[0, 0]] = .err := by decide

/-! ### Trace and weight invariants of the refinement loop -/

/-- Every query recorded by the loop pairs a hitting set with the
assumption set derived from it by `mkAssumption`. -/
lemma runLoop_trace_spec {S : Type} (eng : SatEngine S)
    (exact : Hypergraph → HsOut) (relaxVars : Finset ℤ) (mapping : BiMap) :
    ∀ (fuel : ℕ) (s : S) (g : Hypergraph) (tr : List Query),
      (∀ q ∈ tr, q.assumption = mkAssumption relaxVars mapping q.hs) →
      ∀ q ∈ (runLoop eng exact relaxVars mapping fuel s g tr).trace,
        q.assumption = mkAssumption relaxVars mapping q.hs := by
  intro fuel
  induction fuel with
  | zero =>
    intro s g tr htr q hq
    rw [runLoop] at hq
    exact htr q hq
  | succ fuel ih =>
    intro s g tr htr
    have ext1 : ∀ hs1 : List ℕ,
        ∀ q ∈ tr ++ [(⟨hs1, mkAssumption relaxVars mapping hs1⟩ : Query)],
          q.assumption = mkAssumption relaxVars mapping q.hs := by
      intro hs1 q hq
      rcases List.mem_append.mp hq with hq | hq
      · exact htr q hq
      · obtain rfl := List.mem_singleton.mp hq
        rfl
    have ext2 : ∀ hs1 hs2 : List ℕ,
        ∀ q ∈ tr ++ [(⟨hs1, mkAssumption relaxVars mapping hs1⟩ : Query),
          (⟨hs2, mkAssumption relaxVars mapping hs2⟩ : Query)],
          q.assumption = mkAssumption relaxVars mapping q.hs := by
      intro hs1 hs2 q hq
      rcases List.mem_append.mp hq with hq | hq
      · exact htr q hq
      · rcases List.mem_cons.mp hq with rfl | hq
        · rfl
        · obtain rfl := List.mem_singleton.mp hq
          rfl
    rw [runLoop]
    rcases h1 : hs_simple g.n g.edges with hs1 | _ | _ <;> dsimp only
    · rcases h2 : eng.solve s (mkAssumption relaxVars mapping hs1) with ⟨b1, s1⟩
      cases b1 <;> dsimp only
      · rcases h3 : eng.getCore s1 with _ | c <;> dsimp only
        · exact ext1 hs1
        · exact ih s1 _ _ (ext1 hs1)
      · rcases h4 : exact g with hs2 | _ | _ <;> dsimp only
        · rcases h5 : eng.solve s1 (mkAssumption relaxVars mapping hs2)
            with ⟨b2, s2⟩
          cases b2 <;> dsimp only
          · rcases h6 : eng.getCore s2 with _ | c <;> dsimp only
            · exact ext2 hs1 hs2
            · exact ih s2 _ _ (ext2 hs1 hs2)
          · exact ext2 hs1 hs2
        · exact ext1 hs1
        · exact ext1 hs1
    · exact htr
    · exact htr

/-- The loop never changes the hypergraph's weight vector: the only
mutation it performs is `add_edge`. -/
lemma runLoop_weights {S : Type} (eng : SatEngine S)
    (exact : Hypergraph → HsOut) (relaxVars : Finset ℤ) (mapping : BiMap) :
    ∀ (fuel : ℕ) (s : S) (g : Hypergraph) (tr : List Query)
      (s2 : S) (g2 : Hypergraph) (tr2 : List Query),
      runLoop eng exact relaxVars mapping fuel s g tr = .finished s2 g2 tr2 →
      g2.weights = g.weights := by
  intro fuel
  induction fuel with
  | zero =>
    intro s g tr s2 g2 tr2 h
    rw [runLoop] at h
    cases h
  | succ fuel ih =>
    intro s g tr s2 g2 tr2 h
    rw [runLoop] at h
    rcases h1 : hs_simple g.n g.edges with hs1 | _ | _ <;> rw [h1] at h <;>
      dsimp only at h
    · rcases h2 : eng.solve s (mkAssumption relaxVars mapping hs1) with ⟨b1, s1⟩
      rw [h2] at h
      cases b1 <;> dsimp only at h
      · rcases h3 : eng.getCore s1 with _ | c <;> rw [h3] at h <;>
          dsimp only at h
        · cases h
        · exact (ih _ _ _ _ _ _ h).trans rfl
      · rcases h4 : exact g with hs2 | _ | _ <;> rw [h4] at h <;>
          dsimp only at h
        · rcases h5 : eng.solve s1 (mkAssumption relaxVars mapping hs2)
            with ⟨b2, s2x⟩
          rw [h5] at h
          cases b2 <;> dsimp only at h
          · rcases h6 : eng.getCore s2x with _ | c <;> rw [h6] at h <;>
              dsimp only at h
            · cases h
            · exact (ih _ _ _ _ _ _ h).trans rfl
          · cases h
            rfl
        · cases h
        · cases h
    · cases h
    · cases h

/-- C1 (code-bug evaluation): when the first SAT query is unsatisfiable
and the engine yields no core, `run` does not break out of the loop with an
UNSAT result as the spec describes — it crashes with the TypeError raised
inside `_extract_core`: the guard on line 56 is the bare expression
`False`, not `return False`, so execution falls through and `map` is
applied to `None`. -/
theorem run_no_core_crashes :
    run noCoreEngine (fun _ => HsOut.ok []) [(1, 1)] () 5 =
      (RunOut.crashed, [⟨[], {1}⟩]) := by decide

/-- C6: on every SAT query issued by the refinement loop — the
heuristic-derived query and the exact-derived query alike — the assumption
set passed to the engine equals the set of all relaxation literals minus
the literals corresponding (via the vertex mapping) to the currently
selected hitting set. -/
theorem run_assumption_sets {S : Type} (eng : SatEngine S)
    (exact : Hypergraph → HsOut) (relaxation : List (ℤ × ℚ)) (s0 : S)
    (fuel : ℕ) :
    ∀ q ∈ (run eng exact relaxation s0 fuel).2,
      q.assumption = relaxationVars relaxation \
        (q.hs.filterMap (buildMapping relaxation).get_key).toFinset := by
  intro q hq
  have hloop := runLoop_trace_spec eng exact (relaxationVars relaxation)
    (buildMapping relaxation) fuel s0 (initialHypergraph relaxation) []
    (fun q hq => absurd hq (List.not_mem_nil q))
  have htr : (run eng exact relaxation s0 fuel).2 =
      (runLoop eng exact (relaxationVars relaxation) (buildMapping relaxation)
        fuel s0 (initialHypergraph relaxation) []).trace := by
    rw [run]
    rcases runLoop eng exact (relaxationVars relaxation)
        (buildMapping relaxation) fuel s0 (initialHypergraph relaxation) []
      with ⟨s1, g1, tr⟩ | tr | tr | tr <;> rfl
  rw [htr] at hq
  exact hloop q hq

/-- Witness for C6 at a concrete run: on an engine whose single query is
unsatisfiable, the one recorded query pairs the empty hitting set with the
full relaxation-literal set. -/
theorem run_assumption_sets_witness :
    (⟨[], {1}⟩ : Query) ∈
      (run noCoreEngine (fun _ => HsOut.ok []) [(1, 1)] () 5).2 ∧
    (Query.mk [] {1}).assumption = relaxationVars [(1, 1)] \
      (([] : List ℕ).filterMap (buildMapping [(1, 1)]).get_key).toFinset :=
  ⟨by decide, run_assumption_sets noCoreEngine (fun _ => HsOut.ok [])
    [(1, 1)] () 5 ⟨[], {1}⟩ (by decide)⟩

/-- C8 (amended): the model does expose weight-mutating operations
(`set_weight`, `add_to_weight` — see the counterexample), but after solver
construction the refinement loop never changes any vertex weight: its only
hypergraph mutation is `add_edge`, which leaves the weight vector
untouched, so the weights at result extraction equal the weights built at
construction. -/
theorem run_weights_fixed {S : Type} (eng : SatEngine S)
    (exact : Hypergraph → HsOut) (relaxVars : Finset ℤ) (mapping : BiMap) :
    (∀ (g : Hypergraph) (e : List ℕ), (g.add_edge e).weights = g.weights) ∧
    (∀ (fuel : ℕ) (s : S) (g : Hypergraph) (tr : List Query)
      (s2 : S) (g2 : Hypergraph) (tr2 : List Query),
      runLoop eng exact relaxVars mapping fuel s g tr = .finished s2 g2 tr2 →
      g2.weights = g.weights) :=
  ⟨fun _ _ => rfl, runLoop_weights eng exact relaxVars mapping⟩

/-! ### Cost/fitness identity (C5) -/

lemma take_succ_set (l : List ℚ) (k : ℕ) (w : ℚ) (h : k < l.length) :
    (l.set k w).take (k + 1) = l.take k ++ [w] := by
  induction l generalizing k with
  | nil => cases h
  | cons a t ih =>
    cases k with
    | zero => rfl
    | succ k =>
      have hk : k < t.length := by simpa using h
      show a :: (t.set k w).take (k + 1) = a :: t.take k ++ [w]
      rw [ih k hk]
      rfl

/-- The `set_weight` fold of `Solver.__init__` writes each enumerated
weight at its index. -/
lemma foldl_set_weight (l : List (ℤ × ℚ)) :
    ∀ (k : ℕ) (g : Hypergraph), g.weights.length = k + l.length →
      (List.foldl (fun g p => g.set_weight p.1 p.2.2) g (l.enumFrom k)).weights
        = g.weights.take k ++ l.map Prod.snd := by
  induction l with
  | nil =>
    intro k g hg
    simp only [List.enumFrom, List.foldl_nil, List.map_nil, List.append_nil]
    simp only [List.length_nil] at hg
    rw [show k = g.weights.length by omega, List.take_length]
  | cons p t ih =>
    intro k g hg
    rw [List.enumFrom, List.foldl_cons]
    have hlen : (g.set_weight k p.2).weights.length = (k + 1) + t.length := by
      rw [Hypergraph.set_weight]
      simp only [List.length_set]
      simp only [List.length_cons] at hg
      omega
    rw [ih (k + 1) _ hlen]
    have hk : k < g.weights.length := by
      simp only [List.length_cons] at hg
      omega
    rw [show (g.set_weight k p.2).weights = g.weights.set k p.2 from rfl,
      take_succ_set _ _ _ hk]
    simp

lemma initialHypergraph_weights (relaxation : List (ℤ × ℚ)) :
    (initialHypergraph relaxation).weights = relaxation.map Prod.snd := by
  rw [initialHypergraph, show relaxation.enum = relaxation.enumFrom 0 from rfl,
    foldl_set_weight relaxation 0 _ (by simp [Hypergraph.init])]
  rfl

lemma buildMapping_keys (relaxation : List (ℤ × ℚ)) :
    ((relaxation.enum.map (fun p => (p.2.1, p.1))).map Prod.fst)
      = relaxation.map Prod.fst := by
  rw [List.map_map]
  conv_rhs => rw [← List.enum_map_snd relaxation, List.map_map]
  rfl

lemma buildMapping_vals (relaxation : List (ℤ × ℚ)) :
    ((relaxation.enum.map (fun p => (p.2.1, p.1))).map Prod.snd)
      = List.range relaxation.length := by
  rw [List.map_map, ← List.enum_map_fst relaxation]
  rfl

/-- Under distinct relaxation literals, the literal stored at index `j`
maps back to `j`. -/
lemma buildMapping_get_value (relaxation : List (ℤ × ℚ))
    (hnd : (relaxation.map Prod.fst).Nodup) (j : ℕ)
    (hj : j < relaxation.length) :
    (buildMapping relaxation).get_value (relaxation[j].1) = some j := by
  have hmem : ((relaxation[j].1, j) : ℤ × ℕ) ∈
      relaxation.enum.map (fun p => (p.2.1, p.1)) := by
    have hjj : j < (relaxation.enum.map (fun p => (p.2.1, p.1))).length := by
      simpa using hj
    have : (relaxation.enum.map (fun p => (p.2.1, p.1)))[j] =
        (relaxation[j].1, j) := by
      rw [List.getElem_map, List.getElem_enum]
    rw [← this]
    exact List.getElem_mem hjj
  exact (BiMap.lookup_foldl_of_mem _ BiMap.empty
    (by rw [buildMapping_keys]; exact hnd)
    (by rw [buildMapping_vals]; exact List.nodup_range _) hmem).1

/-- With distinct relaxation literals and the constructed weight vector,
the total-weight sum computed over the literal set equals the plain sum of
all soft-constraint weights. -/
lemma totalWeight_initial (relaxation : List (ℤ × ℚ))
    (hnd : (relaxation.map Prod.fst).Nodup) (g : Hypergraph)
    (hw : g.weights = relaxation.map Prod.snd) :
    totalWeight (relaxationVars relaxation) (buildMapping relaxation) g
      = (relaxation.map Prod.snd).sum := by
  rw [totalWeight, relaxationVars, List.sum_toFinset _ hnd]
  congr 1
  apply List.ext_getElem (by simp)
  intro j h1 h2
  have hj : j < relaxation.length := by simpa using h2
  simp only [List.getElem_map]
  rw [buildMapping_get_value relaxation hnd j hj]
  dsimp only
  rw [Hypergraph.get_weight, hw, List.getD_eq_getElem?_getD,
    List.getElem?_eq_getElem (by simpa using hj : j < (relaxation.map Prod.snd).length)]
  simp

/-- C5: whenever `run` returns a non-absent result triple, its cost plus
its fitness equals the sum of the weights of all soft constraints (the
relaxation literals being pairwise distinct, as the fresh-literal input
contract guarantees). -/
theorem run_cost_fitness {S : Type} (eng : SatEngine S)
    (exact : Hypergraph → HsOut) (relaxation : List (ℤ × ℚ)) (s0 : S)
    (fuel : ℕ) (hnd : (relaxation.map Prod.fst).Nodup)
    (a : List ℤ) (c f : ℚ)
    (h : (run eng exact relaxation s0 fuel).1 = .result a c f) :
    c + f = (relaxation.map Prod.snd).sum := by
  rw [run] at h
  rcases hloop : runLoop eng exact (relaxationVars relaxation)
      (buildMapping relaxation) fuel s0 (initialHypergraph relaxation) []
    with ⟨s1, g1, tr⟩ | tr | tr | tr <;> rw [hloop] at h <;> dsimp only at h
  · have hwg : g1.weights = relaxation.map Prod.snd :=
      (runLoop_weights eng exact (relaxationVars relaxation)
          (buildMapping relaxation) fuel s0 (initialHypergraph relaxation) []
          s1 g1 tr hloop).trans
        (initialHypergraph_weights relaxation)
    have hwt : totalWeight (relaxationVars relaxation)
        (buildMapping relaxation) g1 = (relaxation.map Prod.snd).sum :=
      totalWeight_initial relaxation hnd g1 hwg
    rcases hm : eng.getModel s1 with _ | m <;> rw [hm, finalize] at h
    · cases h
    · by_cases hme : m.isEmpty
      · rw [if_pos hme] at h
        cases h
      · rw [if_neg hme] at h
        injection h with ha hc hf
        rw [← hc, ← hf, ← hwt]
        ring
  · cases h
  · cases h
  · cases h

/-- Witness for C5 at a concrete run with one soft constraint of weight 1
whose assumption literal is satisfied in the model: cost 0, fitness 1.
The rational arithmetic is evaluated by explicit rewriting because `Rat`
addition does not reduce definitionally. -/
theorem run_cost_fitness_witness :
    (([(1, 1)] : List (ℤ × ℚ)).map Prod.fst).Nodup ∧
    (run (alwaysSatEngine (some [5, 1])) (fun _ => HsOut.ok [])
      [(1, 1)] () 2).1 = .result [5] 0 1 ∧
    (0 : ℚ) + 1 = (([(1, 1)] : List (ℤ × ℚ)).map Prod.snd).sum := by
  have hloop : runLoop (alwaysSatEngine (some [5, 1])) (fun _ => HsOut.ok [])
      (relaxationVars [(1, 1)]) (buildMapping [(1, 1)]) 2 ()
      (initialHypergraph [(1, 1)]) [] =
        .finished () (initialHypergraph [(1, 1)]) [⟨[], {1}⟩, ⟨[], {1}⟩] := by
    decide
  have hcost : costOf (relaxationVars [(1, 1)]) (buildMapping [(1, 1)])
      (initialHypergraph [(1, 1)]) [5, 1] = 0 := by
    rw [costOf, show (relaxationVars [(1, 1)]).filter
        (fun v => v ∉ ([5, 1] : List ℤ)) = (∅ : Finset ℤ) from by decide,
      Finset.sum_empty]
  have htot : totalWeight (relaxationVars [(1, 1)]) (buildMapping [(1, 1)])
      (initialHypergraph [(1, 1)]) = 1 := by
    rw [totalWeight, show relaxationVars [(1, 1)] = {1} from by decide,
      Finset.sum_singleton]
    rfl
  have hrun : (run (alwaysSatEngine (some [5, 1])) (fun _ => HsOut.ok [])
      [(1, 1)] () 2).1 = .result [5] 0 1 := by
    rw [run, hloop]
    dsimp only [alwaysSatEngine]
    rw [finalize, if_neg (by decide), hcost, htot]
    rw [show ([5, 1] : List ℤ).take
      (([5, 1] : List ℤ).length - (relaxationVars [(1, 1)]).card) = [5] from by decide]
    rw [show (1 : ℚ) - 0 = 1 from by norm_num]
  exact ⟨by decide, hrun,
    run_cost_fitness (alwaysSatEngine (some [5, 1])) (fun _ => HsOut.ok [])
      [(1, 1)] () 2 (by decide) [5] 0 1 hrun⟩

/-- Witness for C8 (amended) at a concrete terminating run. -/
theorem run_weights_fixed_witness :
    runLoop (alwaysSatEngine none) (fun _ => HsOut.ok [])
        (relaxationVars [(1, 1)]) (buildMapping [(1, 1)]) 2 ()
        (initialHypergraph [(1, 1)]) [] =
      .finished () (initialHypergraph [(1, 1)]) [⟨[], {1}⟩, ⟨[], {1}⟩] ∧
    (initialHypergraph [(1, 1)]).weights = (initialHypergraph [(1, 1)]).weights :=
  ⟨by decide,
   (run_weights_fixed (alwaysSatEngine none) (fun _ => HsOut.ok [])
      (relaxationVars [(1, 1)]) (buildMapping [(1, 1)])).2 2 ()
    (initialHypergraph [(1, 1)]) [] () (initialHypergraph [(1, 1)])
    [⟨[], {1}⟩, ⟨[], {1}⟩] (by decide)⟩

end I2hs
